import Mathlib

/-!
Verification development for the `test_proc_cpu` CPU-utilization monitor
(`src/main.rs`). The Rust program's pure core is shallowly embedded below:

* `calculate_time_diff` — the delta engine (signed field-wise difference);
* `get_cpu_times` — the `/proc/stat` snapshot reader, modelled over the list
  of input lines (file I/O itself is out of scope; parsing is faithful);
* `print_values` — delta/average computation, percentage derivation and the
  record handed to the persistence log, as a pure function from the stored
  window, the mode flags and the current wall-clock second;
* the JSON persistence layer — the byte-level file append performed by
  `print_values` together with a character-level JSON parser standing in for
  `serde_json::from_str`, restricted to the value forms the program ever
  writes (integers, strings without escapes, arrays, objects);
* the driver-loop window trimming from `main`.

Machine integers (`u64`, `i64`) are modelled as `Nat`/`Int`: all arithmetic
performed by the program is addition, subtraction and division of jiffy
counters, far below the overflow range, and Rust would panic (debug) rather
than wrap. Rust's `i64` division truncates toward zero, which is `Int.tdiv`.
The `f32` percentage computation is modelled over `ℚ` (exact arithmetic);
rendering at two decimals is modelled by rounding `100 * value` to the
nearest integer.
-/

namespace ProcCpu

/-! ## Definitions: delta engine, history window and print_values -/

/-- One entry of `stored_values`, as pushed by `store_values`:
`(timestamp, cpu_times, core_times)`. -/
abbrev Snapshot : Type := Nat × List Nat × List (List Nat)

/-- Source `calculate_time_diff`: `current.iter().zip(prev.iter())
.map(|(curr, prev)| *curr as i64 - *prev as i64).collect()`.
Rust's `zip` stops at the shorter iterator, so no length check happens. -/
def calculate_time_diff (prev current : List Nat) : List Int :=
  (current.zip prev).map (fun p => (p.1 : Int) - (p.2 : Int))

/-- Rust `slice.windows(2)` as the list of adjacent (previous, current) pairs. -/
def windowsPairs : List α → List (α × α)
  | a :: b :: rest => (a, b) :: windowsPairs (b :: rest)
  | _ => []

/-- The accumulation loop body `for (i, diff) in d.iter().enumerate()
{ acc[i] += diff }`: add `d` into `acc` elementwise. If `d` were longer than
`acc` the source would panic on an out-of-bounds index; in the program every
vector has the same field count, and this embedding drops the excess. -/
def addTo : List Int → List Int → List Int
  | a :: as, d :: ds => (a + d) :: addTo as ds
  | [], _ => []
  | as, [] => as

/-- The per-core accumulation: `for (j, (prev_core, curr_core)) in
prev_cores.iter().zip(curr_cores.iter()).enumerate() { core_avgs[j][i] += .. }`.
Iteration stops at the shorter of the two core lists; accumulator rows with
no corresponding pair are left unchanged. -/
def addCoreDiffs : List (List Int) → List (List Nat) → List (List Nat) → List (List Int)
  | acc :: accs, p :: ps, c :: cs =>
      addTo acc (calculate_time_diff p c) :: addCoreDiffs accs ps cs
  | accs, _, _ => accs

/-- The percentage derivation of `print_values`:
`(1.0 - idle_time as f32 / total_time as f32) * 100.0` with
`idle_time = avgs[3] + avgs[4]` and `total_time = avgs.iter().sum()`.
The `f32` arithmetic is modelled exactly over `ℚ`; `avgs` always has the 10
kernel fields where this is applied, so `getD` equals the source indexing. -/
def usage_percent (avgs : List Int) : ℚ :=
  let total : Int := avgs.foldl (· + ·) 0
  let idle : Int := avgs.getD 3 0 + avgs.getD 4 0
  (1 - (idle : ℚ) / (total : ℚ)) * 100

/-- The object serialized to `cpu_averages.json` each tick:
`{ now.to_string(): {"cpu": cpu_avgs, "cores": core_avgs} }`. -/
structure AggRecord where
  key : String
  cpu : List Int
  cores : List (List Int)
deriving DecidableEq, Repr

/-- Result of one `print_values` call. `notEnough` is the early return that
prints "Not enough stored values..." (nothing rendered or persisted);
`panicDivZero` is the `*avg /= actual_times` integer division by zero, a
Rust panic; `output` carries the rendered delta table, the percentage table
(instantaneous mode only) and the record appended to the log. -/
inductive PrintOutcome where
  | notEnough
  | panicDivZero
  | output (cpuAvgs : List Int) (coreAvgs : List (List Int))
      (percents : Option (ℚ × List ℚ)) (persisted : AggRecord)
deriving DecidableEq

/-- Source `print_values`, lines 86–191, as a pure function. `storedValues`
is the history window, `printAvg`/`numTimes` the CLI configuration, `now`
the wall-clock second at which the call runs (`SystemTime::now()` both times
it is taken). -/
def print_values (storedValues : List Snapshot) (printAvg : Bool)
    (numTimes : Nat) (now : Nat) : PrintOutcome :=
  let numValues := storedValues.length
  if numValues < 2 then .notEnough
  else
    let startIndex := if printAvg then numValues - numTimes else numValues - 2
    let actualTimes := if printAvg then numValues - startIndex else 1
    let numCores := (storedValues.head?.map (fun s => s.2.2.length)).getD 0
    let pairs := (windowsPairs storedValues).drop startIndex
    let cpuSums := pairs.foldl
      (fun acc w => addTo acc (calculate_time_diff w.1.2.1 w.2.2.1))
      (List.replicate 10 0)
    let coreSums := pairs.foldl
      (fun acc w => addCoreDiffs acc w.1.2.2 w.2.2.2)
      (List.replicate numCores (List.replicate 10 0))
    if printAvg ∧ actualTimes = 0 then .panicDivZero
    else
      let cpuAvgs := if printAvg
        then cpuSums.map (fun a => a.tdiv (actualTimes : Int)) else cpuSums
      let coreAvgs := if printAvg
        then coreSums.map (fun l => l.map (fun a => a.tdiv (actualTimes : Int)))
        else coreSums
      let percents := if printAvg then none
        else some (usage_percent cpuAvgs, coreAvgs.map usage_percent)
      .output cpuAvgs coreAvgs percents ⟨toString now, cpuAvgs, coreAvgs⟩

/-- The record a `print_values` call appends to the log, if any. -/
def persistedOf : PrintOutcome → Option AggRecord
  | .output _ _ _ r => some r
  | _ => none

/-! ## Definitions: driver loop -/

/-- The trim step at the end of each loop iteration (`main`, lines 250–255):
`if print_avg && stored_values.len() > num_times { stored_values.remove(0); }
else if !print_avg && stored_values.len() > 2 { stored_values.remove(0); }`.
`Vec::remove(0)` drops the front (oldest) element. -/
def trimStored (printAvg : Bool) (numTimes : Nat) (sv : List Snapshot) : List Snapshot :=
  if printAvg ∧ sv.length > numTimes then sv.drop 1
  else if ¬printAvg = true ∧ sv.length > 2 then sv.drop 1
  else sv

/-- One loop iteration's effect on the window: `store_values` pushes the new
snapshot at the back, then the trim step runs. -/
def tickStore (printAvg : Bool) (numTimes : Nat) (sv : List Snapshot)
    (snap : Snapshot) : List Snapshot :=
  trimStored printAvg numTimes (sv ++ [snap])

/-- The capacity the specification assigns to the history window:
2 in instantaneous mode, `numTimes + 1` in average mode. -/
def capacity (printAvg : Bool) (numTimes : Nat) : Nat :=
  if printAvg then numTimes + 1 else 2

/-- Rust `str::parse::<usize>()` on the strings this program meets: succeeds
exactly on non-empty all-digit strings (Rust additionally accepts a leading
`+`, which no caller here ever passes; overflow is out of range for the
inputs concerned). -/
def parse_usize (s : String) : Option Nat :=
  let cs := s.data
  if cs ≠ [] ∧ cs.all Char.isDigit
  then some (cs.foldl (fun a c => a * 10 + (c.toNat - 48)) 0)
  else none

/-- Rust `Iterator::position`: index of the first element equal to `target`. -/
def positionOf (target : String) : List String → Option Nat
  | [] => none
  | a :: rest => if a = target then some 0 else (positionOf target rest).map (fun i => i + 1)

/-- Argument handling in `main`: `args.iter().position(|arg| arg == "--times")
.and_then(|i| args.get(i + 1)).and_then(|s| s.parse().ok()).unwrap_or(10)`. -/
def numTimesOfArgs (args : List String) : Nat :=
  (((positionOf "--times" args).bind (fun i => args.get? (i + 1))).bind
    (fun s => parse_usize s)).getD 10

/-! ## Definitions: spec-side statements taken from the claims -/

/-- Spec-side averaging, following the claim's words: take the last `k`
consecutive pairwise deltas of the aggregate cpu vectors (the last `k`
elements of the list of adjacent-pair deltas), sum them field-wise, and
divide every field by `d` with truncating integer division. -/
def specCpuAverage (cpuVecs : List (List Nat)) (k d : Nat) : List Int :=
  ((((windowsPairs cpuVecs).drop ((cpuVecs.length - 1) - k)).map
      (fun pr => calculate_time_diff pr.1 pr.2)).foldl addTo
    (List.replicate 10 0)).map (fun a => Int.tdiv a (d : Int))

/-- Spec-side averaging for the per-core vectors: the same last-`k`
accumulation applied core-wise, with `numCores` accumulator rows. -/
def specCoreAverage (coreVecs : List (List (List Nat))) (numCores k d : Nat) :
    List (List Int) :=
  (((windowsPairs coreVecs).drop ((coreVecs.length - 1) - k)).foldl
    (fun acc pr => addCoreDiffs acc pr.1 pr.2)
    (List.replicate numCores (List.replicate 10 0))).map
      (fun l => l.map (fun a => Int.tdiv a (d : Int)))

/-- The `{:>10.2}%` rendering of a percentage value, as integer hundredths
(two decimal places, rounded to nearest). -/
def displayCentis (q : ℚ) : Int := round (q * 100)

/-! ## Definitions: the snapshot reader -/

/-- Rust `str::split_whitespace` restricted to the blank and tab characters
that occur in `/proc/stat`: split into maximal non-blank runs, dropping
empties. -/
def splitWsGo (cur : List Char) : List Char → List String
  | [] => if cur = [] then [] else [String.mk cur.reverse]
  | c :: rest =>
    if c = ' ' ∨ c = '\t' then
      (if cur = [] then splitWsGo [] rest
       else String.mk cur.reverse :: splitWsGo [] rest)
    else splitWsGo (c :: cur) rest

/-- Whitespace tokens of one line. -/
def splitWs (s : String) : List String := splitWsGo [] s.data

/-- Source `tokens.map(|x| x.parse::<u64>().unwrap()).collect()`: parse every token
as an unsigned integer, failing (panicking) on the first malformed one. -/
def parseFields : List String → Option (List Nat)
  | [] => some []
  | t :: rest =>
    match parse_usize t, parseFields rest with
    | some v, some vs => some (v :: vs)
    | _, _ => none

/-- Source `line.starts_with("cpu")`. -/
def startsWithCpu (line : String) : Bool :=
  match line.data with
  | 'c' :: 'p' :: 'u' :: _ => true
  | _ => false

/-- The per-core reading loop of `get_cpu_times`: consume lines while they
start with `"cpu"`, parsing each line's fields after the label; stop at the
first non-matching line; panic on the first malformed numeric field. -/
def readCores : List String → Option (List (List Nat))
  | [] => some []
  | line :: rest =>
    if startsWithCpu line then
      match parseFields ((splitWs line).drop 1), readCores rest with
      | some v, some vs => some (v :: vs)
      | _, _ => none
    else some []

/-- Outcome of `get_cpu_times`. `panicEmpty` is the `lines.next().unwrap()`
panic on an empty source; `panicParse` the `x.parse().unwrap()` panic on a
malformed numeric field. -/
inductive CpuTimesResult where
  | ok (cpu : List Nat) (cores : List (List Nat))
  | panicEmpty
  | panicParse
deriving DecidableEq

/-- Source `get_cpu_times`, modelled over the list of lines of the counter
source: first line gives the aggregate vector (label skipped), subsequent
`"cpu"`-labelled lines the per-core vectors, stopping at the first
non-matching line. -/
def get_cpu_times (input : List String) : CpuTimesResult :=
  match input with
  | [] => .panicEmpty
  | first :: rest =>
    match parseFields ((splitWs first).drop 1) with
    | none => .panicParse
    | some cpu =>
      match readCores rest with
      | none => .panicParse
      | some cores => .ok cpu cores

/-- Spec-side per-core parsing, from the claim's words: one vector per line
bearing the core-label prefix, in order. -/
def parseCoreLines : List String → Option (List (List Nat))
  | [] => some []
  | l :: rest =>
    match parseFields ((splitWs l).drop 1), parseCoreLines rest with
    | some v, some vs => some (v :: vs)
    | _, _ => none

/-! ## Definitions: JSON persistence layer

The program serializes with `serde_json`'s compact printer and reads back
with `serde_json::from_str`. Both are modelled at the character level,
restricted to the value forms this program ever writes: integers, strings
without escape sequences, arrays and objects. `serde_json`'s default `Map`
is ordered by key, so inside a record the `"cores"` member prints before
`"cpu"`; floats, booleans and `null` literals never occur in the files the
program itself produces. -/

/-- JSON values (serde_json `Value`, restricted as described above). -/
inductive Json where
  | null
  | num (n : Int)
  | str (s : String)
  | arr (elems : List Json)
  | obj (members : List (String × Json))

/-- Source `Value::is_object`. -/
def Json.isObj : Json → Bool
  | .obj _ => true
  | _ => false

/-- The `serde_json` string indexing `v[key]`: member lookup on objects,
`Null` on other values and on a missing key. -/
def jsonIndex (v : Json) (key : String) : Json :=
  match v with
  | .obj kvs => ((kvs.find? (fun kv => kv.1 == key)).map (fun kv => kv.2)).getD .null
  | _ => .null

/-- What the `--read <timestamp>` branch of `read_json_file` prints:
either the matching record's data or the not-found message. -/
inductive ReadOutput where
  | record (ts : String) (data : Json)
  | notFound (msg : String)

/-- Source `read_json_file` with `Some(timestamp)` (lines 62–67): find the
first array element `obj` with `obj[timestamp].is_object()` and print its
data, else print the not-found message. -/
def read_json_file (records : List Json) (ts : String) : ReadOutput :=
  match records.find? (fun obj => (jsonIndex obj ts).isObj) with
  | some data => .record ts (jsonIndex data ts)
  | none => .notFound ("No data found for timestamp " ++ ts ++ ".")

/-- Spec-side lookup, from the claim's words: the first record whose key
matches the requested key exactly by string equality. -/
def specFindByKey (records : List Json) (ts : String) : Option Json :=
  records.find? (fun o => match o with
    | .obj ((k, _) :: _) => k == ts
    | _ => false)

/-- The no-timestamp branch of `read_json_file` (lines 69–75): for every
array element, each `(key, value)` member pair in file order. The source
calls `data.as_object().unwrap()`, panicking on non-objects; every element
this program writes is an object. -/
def readAllRecords (records : List Json) : List (String × Json) :=
  records.foldr (fun o acc =>
    (match o with
     | .obj kvs => kvs
     | _ => []) ++ acc) []

/-- Decimal digit character. -/
def digitChar (d : Nat) : Char := Char.ofNat (48 + d)

/-- Big-endian decimal digits of a natural number. -/
def bigDigits (n : Nat) : List Nat :=
  if n = 0 then [0] else (Nat.digits 10 n).reverse

/-- Decimal print of a natural number, as serde_json prints it. -/
def natChars (n : Nat) : List Char := (bigDigits n).map digitChar

/-- Decimal print of a signed integer. -/
def intChars (n : Int) : List Char :=
  if n < 0 then '-' :: natChars n.natAbs else natChars n.toNat

/-- Comma-separated continuation of an integer-array body, including the
closing bracket. -/
def intsTail : List Int → List Char
  | [] => [']']
  | x :: xs => ',' :: (intChars x ++ intsTail xs)

/-- Body of a serialized integer array, after the opening bracket. -/
def intsAfterHead : List Int → List Char
  | [] => [']']
  | x :: xs => intChars x ++ intsTail xs

/-- A serialized integer array, e.g. `[10,0,-3]`. -/
def listIntChars (l : List Int) : List Char := '[' :: intsAfterHead l

/-- Comma-separated continuation of an array-of-arrays body. -/
def listsTail : List (List Int) → List Char
  | [] => [']']
  | x :: xs => ',' :: (listIntChars x ++ listsTail xs)

/-- Body of a serialized array of integer arrays, after the opening bracket. -/
def listsAfterHead : List (List Int) → List Char
  | [] => [']']
  | x :: xs => listIntChars x ++ listsTail xs

/-- A serialized array of integer arrays, e.g. `[[1,2],[3]]`. -/
def listListChars (ls : List (List Int)) : List Char := '[' :: listsAfterHead ls

/-- The serialized inner object `{"cores":…,"cpu":…}` (keys in serde_json's
sorted map order). -/
def innerChars (cpu : List Int) (cores : List (List Int)) : List Char :=
  '{' :: '"' :: ("cores".data ++ '"' :: ':' ::
    (listListChars cores ++ ',' :: '"' :: ("cpu".data ++ '"' :: ':' ::
      (listIntChars cpu ++ ['}']))))

/-- Source `json!({ now.to_string(): {"cpu": …, "cores": …} }).to_string()`. -/
def recordChars (key : Nat) (cpu : List Int) (cores : List (List Int)) : List Char :=
  '{' :: '"' :: (natChars key ++ '"' :: ':' :: (innerChars cpu cores ++ ['}']))

/-- The JSON value of the inner object. -/
def innerJson (cpu : List Int) (cores : List (List Int)) : Json :=
  .obj [("cores", .arr (cores.map (fun c => .arr (c.map Json.num)))),
        ("cpu", .arr (cpu.map Json.num))]

/-- The JSON value of one persisted record. -/
def recordJson (key : Nat) (cpu : List Int) (cores : List (List Int)) : Json :=
  .obj [(String.mk (natChars key), innerJson cpu cores)]

/-- The log append of `print_values` (lines 176–190), at the byte level:
if the file is empty write `[`, else seek to the last byte (the closing
bracket) and overwrite it with `,`; then `writeln!` the record (record text
plus a newline) and write the closing `]`. -/
def appendRecordToFile (file recordText : List Char) : List Char :=
  if file.length = 0 then '[' :: (recordText ++ ['\n', ']'])
  else file.dropLast ++ ',' :: (recordText ++ ['\n', ']'])

/-- Source `reader.lines()` plus `push_str` in `read_json_file` (lines 55–58): the
text handed to the JSON parser is the file with line terminators removed. -/
def stripNewlines (cs : List Char) : List Char := cs.filter (fun c => c != '\n')

/-- JSON insignificant whitespace. -/
def isWsChar (c : Char) : Bool := c = ' ' ∨ c = '\n' ∨ c = '\t' ∨ c = '\r'

/-- Skip insignificant whitespace. -/
def skipWs : List Char → List Char
  | c :: cs => if isWsChar c then skipWs cs else c :: cs
  | [] => []

/-- Digit run of an integer literal: accumulate digits while they last. -/
def digitsToNat (acc : Nat) : List Char → Nat × List Char
  | c :: cs =>
    if c.isDigit then digitsToNat (acc * 10 + (c.toNat - 48)) cs else (acc, c :: cs)
  | [] => (acc, [])

/-- String body after the opening quote: plain characters up to the closing
quote (the program writes no escape sequences, so a backslash fails). -/
def parseStrBody (cs : List Char) : Option (String × List Char) :=
  let content := cs.takeWhile (fun c => !(c == '"' || c == '\\'))
  match cs.drop content.length with
  | '"' :: rest => some (String.mk content, rest)
  | _ => none

mutual

/-- Recursive-descent JSON value parser standing in for
`serde_json::from_str`, over the grammar the program writes. Fuel only
bounds recursion; every lemma supplies more fuel than input length. -/
def parseVal : Nat → List Char → Option (Json × List Char)
  | 0, _ => none
  | fuel + 1, cs =>
    match skipWs cs with
    | [] => none
    | c :: rest =>
      if c = '[' then
        match skipWs rest with
        | [] => none
        | c2 :: rest2 =>
          if c2 = ']' then some (.arr [], rest2)
          else
            match parseVal fuel rest with
            | some (v, rest') => parseArrNext fuel [v] rest'
            | none => none
      else if c = '{' then
        match skipWs rest with
        | [] => none
        | c2 :: rest2 =>
          if c2 = '}' then some (.obj [], rest2)
          else if c2 = '"' then
            match parseStrBody rest2 with
            | some (k, rest3) =>
              match skipWs rest3 with
              | [] => none
              | c3 :: rest4 =>
                if c3 = ':' then
                  match parseVal fuel rest4 with
                  | some (v, rest5) => parseObjNext fuel [(k, v)] rest5
                  | none => none
                else none
            | none => none
          else none
      else if c = '"' then
        match parseStrBody rest with
        | some (s, rest') => some (.str s, rest')
        | none => none
      else if c = '-' then
        match rest with
        | c2 :: rest2 =>
          if c2.isDigit then
            let pr := digitsToNat (c2.toNat - 48) rest2
            some (.num (-(pr.1 : Int)), pr.2)
          else none
        | [] => none
      else if c.isDigit then
        let pr := digitsToNat (c.toNat - 48) rest
        some (.num (pr.1 : Int), pr.2)
      else none

/-- Continuation of an array after at least one parsed element. -/
def parseArrNext : Nat → List Json → List Char → Option (Json × List Char)
  | 0, _, _ => none
  | fuel + 1, acc, cs =>
    match skipWs cs with
    | [] => none
    | c :: rest =>
      if c = ']' then some (.arr acc, rest)
      else if c = ',' then
        match parseVal fuel rest with
        | some (v, rest') => parseArrNext fuel (acc ++ [v]) rest'
        | none => none
      else none

/-- Continuation of an object after at least one parsed member. -/
def parseObjNext : Nat → List (String × Json) → List Char → Option (Json × List Char)
  | 0, _, _ => none
  | fuel + 1, acc, cs =>
    match skipWs cs with
    | [] => none
    | c :: rest =>
      if c = '}' then some (.obj acc, rest)
      else if c = ',' then
        match skipWs rest with
        | [] => none
        | c2 :: rest2 =>
          if c2 = '"' then
            match parseStrBody rest2 with
            | some (k, rest3) =>
              match skipWs rest3 with
              | [] => none
              | c3 :: rest4 =>
                if c3 = ':' then
                  match parseVal fuel rest4 with
                  | some (v, rest5) => parseObjNext fuel (acc ++ [(k, v)]) rest5
                  | none => none
                else none
            | none => none
          else none
      else none

end

/-- Model of `serde_json::from_str` on a whole document: one value, then only
whitespace to the end of input. -/
def parseJson (cs : List Char) : Option Json :=
  match parseVal (cs.length + 1) cs with
  | some (v, rest) => if skipWs rest = [] then some v else none
  | none => none

/-- The next character, if any, is not a digit — a digit run ends here. -/
def stopsNum : List Char → Prop
  | [] => True
  | c :: _ => c.isDigit = false

/-! ## C2 / C5: the delta engine -/

/-- Length of a delta vector: Rust `zip` stops at the shorter input. -/
theorem calculate_time_diff_length (A B : List Nat) :
    (calculate_time_diff A B).length = min B.length A.length := by
  simp [calculate_time_diff, List.length_zip]

/-- Pointwise value of a delta vector on the common index range. -/
theorem calculate_time_diff_getD (A B : List Nat) (i : Nat)
    (hiA : i < A.length) (hiB : i < B.length) :
    (calculate_time_diff A B).getD i 0 = (B.getD i 0 : Int) - (A.getD i 0 : Int) := by
  have hi' : i < (calculate_time_diff A B).length := by
    rw [calculate_time_diff_length]; omega
  rw [List.getD_eq_getElem _ _ hi', List.getD_eq_getElem _ _ hiB,
    List.getD_eq_getElem _ _ hiA]
  simp [calculate_time_diff, List.getElem_map, List.getElem_zip]

/-- C2. For equal-length counter vectors `A` (previous) and `B` (current),
`calculate_time_diff A B` has the same length and its `i`-th element is
`B[i] - A[i]` as a signed integer; when `B[i] < A[i]` the element is
negative, surfaced as-is. -/
theorem C2_delta_pointwise (A B : List Nat) (h : A.length = B.length) :
    (calculate_time_diff A B).length = B.length ∧
    (∀ i, i < B.length →
      (calculate_time_diff A B).getD i 0 = (B.getD i 0 : Int) - (A.getD i 0 : Int)) ∧
    (∀ i, i < B.length → B.getD i 0 < A.getD i 0 →
      (calculate_time_diff A B).getD i 0 < 0) := by
  refine ⟨?_, ?_, ?_⟩
  · rw [calculate_time_diff_length]; omega
  · intro i hi
    exact calculate_time_diff_getD A B i (by omega) hi
  · intro i hi hlt
    have := calculate_time_diff_getD A B i (by omega) hi
    omega

/-- Witness for C2 at `A = [4, 10]`, `B = [2, 30]`: the delta is `[-2, 20]`,
the first field negative because the counter decreased. -/
theorem C2_delta_pointwise_witness :
    ([4, 10] : List Nat).length = ([2, 30] : List Nat).length ∧
    (calculate_time_diff [4, 10] [2, 30]).getD 0 0 = -2 ∧
    (calculate_time_diff [4, 10] [2, 30]).getD 0 0 < 0 := by
  refine ⟨rfl, ?_, ?_⟩
  · have h := (C2_delta_pointwise [4, 10] [2, 30] rfl).2.1 0 (by decide)
    simpa using h
  · exact (C2_delta_pointwise [4, 10] [2, 30] rfl).2.2 0 (by decide) (by decide)

/-- C5 counterexample. On vectors of differing lengths the delta engine does
not fail at all: `calculate_time_diff [5] [7, 9]` returns the ordinary delta
vector `[2]` even though the lengths 1 and 2 differ, so no ShapeMismatch
error exists anywhere in its behaviour. -/
theorem C5_counterexample :
    ([5] : List Nat).length ≠ ([7, 9] : List Nat).length ∧
    calculate_time_diff [5] [7, 9] = [2] := by
  exact ⟨by decide, by decide⟩

/-- C5 amended. For counter vectors of any lengths, `calculate_time_diff`
silently truncates to the shorter input: the result has length
`min |B| |A|` and element `i` equals `B[i] - A[i]` on that common range. -/
theorem C5_amended_truncation (A B : List Nat) :
    (calculate_time_diff A B).length = min B.length A.length ∧
    (∀ i, i < min B.length A.length →
      (calculate_time_diff A B).getD i 0 = (B.getD i 0 : Int) - (A.getD i 0 : Int)) := by
  refine ⟨calculate_time_diff_length A B, ?_⟩
  intro i hi
  exact calculate_time_diff_getD A B i (by omega) (by omega)

/-- Witness for C5 amended at the differing-length input `A = [5]`,
`B = [7, 9]`. -/
theorem C5_amended_truncation_witness :
    (calculate_time_diff [5] [7, 9]).length = 1 ∧
    (calculate_time_diff [5] [7, 9]).getD 0 0 = 2 := by
  refine ⟨by simpa using (C5_amended_truncation [5] [7, 9]).1, ?_⟩
  have h := (C5_amended_truncation [5] [7, 9]).2 0 (by decide)
  simpa using h

/-! ## C8, C10, C4: driver loop, panic guard, persistence -/

/-- The window shrinks back under its steady-state bound after one tick. -/
theorem tickStore_length (p : Bool) (n : Nat) (sv : List Snapshot) (s : Snapshot)
    (h : sv.length ≤ if p then n else 2) :
    (tickStore p n sv s).length ≤ if p then n else 2 := by
  unfold tickStore trimStored
  rcases p with _ | _ <;>
    · split
      · simp_all
      · split
        · simp_all
        · simp_all

/-- Trimming only ever drops elements from the front. -/
theorem trimStored_suffix (p : Bool) (n : Nat) (sv : List Snapshot) :
    trimStored p n sv <:+ sv := by
  unfold trimStored
  split
  · rw [List.drop_one]; exact List.tail_suffix sv
  · split
    · rw [List.drop_one]; exact List.tail_suffix sv
    · exact List.suffix_refl sv

/-- C8. Starting from an empty window, after any sequence of ticks
(append at the back followed by the trim step) the window never holds more
snapshots than the configured capacity — 2 in instantaneous mode,
`numTimes + 1` in average mode — and eviction is FIFO: the window is always
a suffix of the full append sequence, i.e. the oldest entries are the ones
removed, and the surviving order is the append order. -/
theorem C8_window_capacity_fifo (printAvg : Bool) (numTimes : Nat)
    (snaps : List Snapshot) :
    (snaps.foldl (tickStore printAvg numTimes) []).length ≤
      capacity printAvg numTimes ∧
    snaps.foldl (tickStore printAvg numTimes) [] <:+ snaps := by
  have main : ∀ l : List Snapshot,
      (l.foldl (tickStore printAvg numTimes) []).length ≤
        (if printAvg then numTimes else 2) ∧
      l.foldl (tickStore printAvg numTimes) [] <:+ l := by
    intro l
    induction l using List.reverseRecOn with
    | nil => simp
    | append_singleton t a ih =>
      rw [List.foldl_append, List.foldl_cons, List.foldl_nil]
      refine ⟨tickStore_length _ _ _ _ ih.1, ?_⟩
      have h1 : tickStore printAvg numTimes (t.foldl (tickStore printAvg numTimes) []) a
          <:+ (t.foldl (tickStore printAvg numTimes) []) ++ [a] :=
        trimStored_suffix _ _ _
      have h2 : (t.foldl (tickStore printAvg numTimes) []) ++ [a] <:+ t ++ [a] := by
        obtain ⟨u, hu⟩ := ih.2
        exact ⟨u, by rw [← List.append_assoc, hu]⟩
      exact h1.trans h2
  refine ⟨le_trans (main snaps).1 ?_, (main snaps).2⟩
  unfold capacity
  rcases printAvg with _ | _ <;> simp

/-- C10. `--times 0` parses to `num_times = 0`; in average mode, as soon as
the window holds two snapshots, `actual_times` is 0 and the averaging loop
`*avg /= actual_times` divides by zero, which panics in Rust instead of
printing a table. -/
theorem C10_times_zero_panics :
    numTimesOfArgs ["target/debug/test_proc_cpu", "--avg", "--times", "0"] = 0 ∧
    ∀ (sv : List Snapshot) (now : Nat), 2 ≤ sv.length →
      print_values sv true 0 now = .panicDivZero := by
  refine ⟨by decide, ?_⟩
  intro sv now h
  simp only [print_values]
  rw [if_neg (by omega)]
  simp

/-- Witness for C10 on a two-snapshot window. -/
theorem C10_times_zero_panics_witness :
    2 ≤ ([⟨0, [], []⟩, ⟨1, [], []⟩] : List Snapshot).length ∧
    print_values [⟨0, [], []⟩, ⟨1, [], []⟩] true 0 55 = .panicDivZero :=
  ⟨by decide, C10_times_zero_panics.2 [⟨0, [], []⟩, ⟨1, [], []⟩] 55 (by decide)⟩

/-- C4 counterexample. On the very first tick the window holds one snapshot
and `print_values` returns at the "Not enough stored values" guard before
reaching the persistence code, so no record is appended on that tick —
refuting "on every tick a record is appended". -/
theorem C4_counterexample :
    persistedOf (print_values [⟨5, List.replicate 10 0, []⟩] true 10 123) = none := by
  rfl

/-- C4 amended. On every tick at which the window already holds at least two
snapshots (every tick after the first; in average mode additionally with a
requested count of at least 1, which excludes the `--times 0` panic), in
both instantaneous and average mode `print_values` appends one record to the
persistence log, keyed by the stringified wall-clock second `now` at which
the call runs — a value independent of every timestamp stored in the
window. -/
theorem C4_amended_persists (sv : List Snapshot) (printAvg : Bool)
    (numTimes now : Nat) (h2 : 2 ≤ sv.length)
    (ht : printAvg = true → 1 ≤ numTimes) :
    ∃ c cs p, print_values sv printAvg numTimes now =
      .output c cs p ⟨toString now, c, cs⟩ := by
  simp only [print_values]
  rw [if_neg (by omega)]
  rcases printAvg with _ | _
  · rw [if_neg (by simp)]
    exact ⟨_, _, _, rfl⟩
  · rw [if_neg ?hc]
    case hc =>
      rintro ⟨-, h0⟩
      have h1 : 1 ≤ numTimes := ht rfl
      simp only [if_pos] at h0
      omega
    exact ⟨_, _, _, rfl⟩

/-- Witness for C4 amended: a two-snapshot window in instantaneous mode,
persisted under the wall-clock key `"7"` even though the snapshots carry
timestamps 100 and 101. -/
theorem C4_amended_persists_witness :
    2 ≤ ([⟨100, List.replicate 10 1, []⟩, ⟨101, List.replicate 10 3, []⟩] : List Snapshot).length ∧
    ∃ c cs p,
      print_values [⟨100, List.replicate 10 1, []⟩, ⟨101, List.replicate 10 3, []⟩] false 10 7 =
        .output c cs p ⟨toString 7, c, cs⟩ :=
  ⟨by decide,
    C4_amended_persists [⟨100, List.replicate 10 1, []⟩, ⟨101, List.replicate 10 3, []⟩]
      false 10 7 (by decide) (by simp)⟩

/-! ## C1: average mode -/

/-- Adjacent pairs of a mapped list are the mapped adjacent pairs. -/
theorem windowsPairs_map (f : α → β) :
    (l : List α) → windowsPairs (l.map f) = (windowsPairs l).map (fun p => (f p.1, f p.2))
  | [] => rfl
  | [_] => rfl
  | a :: b :: rest => by
    have ih := windowsPairs_map f (b :: rest)
    simp only [List.map_cons] at ih
    show (f a, f b) :: windowsPairs (f b :: List.map f rest)
      = (f a, f b) :: (windowsPairs (b :: rest)).map (fun p => (f p.1, f p.2))
    rw [ih]

/-- The spec-side cpu fold over projected vectors equals the source loop
over the stored triples. -/
theorem cpuFold_eq (sv : List Snapshot) (s : Nat) :
    (((windowsPairs (sv.map (fun x => x.2.1))).drop s).map
        (fun pr => calculate_time_diff pr.1 pr.2)).foldl addTo (List.replicate 10 0)
    = ((windowsPairs sv).drop s).foldl
        (fun acc w => addTo acc (calculate_time_diff w.1.2.1 w.2.2.1))
        (List.replicate 10 0) := by
  rw [windowsPairs_map, ← List.map_drop, List.map_map, List.foldl_map]
  rfl

/-- The spec-side core fold over projected vectors equals the source loop
over the stored triples. -/
theorem coreFold_eq (sv : List Snapshot) (s : Nat) (z : List (List Int)) :
    ((windowsPairs (sv.map (fun x => x.2.2))).drop s).foldl
        (fun acc pr => addCoreDiffs acc pr.1 pr.2) z
    = ((windowsPairs sv).drop s).foldl
        (fun acc w => addCoreDiffs acc w.1.2.2 w.2.2.2) z := by
  rw [windowsPairs_map, ← List.map_drop, List.foldl_map]

/-- C1 counterexample. Window of 3 snapshots, requested count 2: the claim
says the average is the sum of the last `min(2, 3−1) = 2` pairwise deltas
divided by the number of pairs summed (2), i.e. `(100 + 0) / 2 = 50` in the
first field — but the code skips the first of those two pairs (it sums from
index `num_values − num_times = 1`, summing only 1 pair) and divides by 2,
printing and persisting 0. -/
theorem C1_counterexample :
    print_values
      [⟨0, List.replicate 10 0, []⟩,
       ⟨1, 100 :: List.replicate 9 0, []⟩,
       ⟨2, 100 :: List.replicate 9 0, []⟩] true 2 7 =
      .output (List.replicate 10 0) [] none ⟨"7", List.replicate 10 0, []⟩ ∧
    specCpuAverage
      [List.replicate 10 0, 100 :: List.replicate 9 0, 100 :: List.replicate 9 0]
      (min 2 (3 - 1)) (min 2 (3 - 1)) = 50 :: List.replicate 9 0 ∧
    (List.replicate 10 (0 : Int)) ≠ 50 :: List.replicate 9 0 := by
  refine ⟨by decide, by decide, by decide⟩

/-- C1 amended. In average mode, for a window of `L ≥ 2` snapshots and a
requested count `T ≥ 1`, the printed/persisted averaged delta for each field
equals the sum of the last `min(T, L) − 1` consecutive pairwise deltas of
that field, divided (truncating integer division) by `min(T, L)` — one more
than the number of pairs actually summed — both for the aggregate and for
each core. -/
theorem C1_amended_average (sv : List Snapshot) (numTimes now : Nat)
    (h2 : 2 ≤ sv.length) (ht : 1 ≤ numTimes) :
    print_values sv true numTimes now =
      .output
        (specCpuAverage (sv.map (fun x => x.2.1)) (min numTimes sv.length - 1)
          (min numTimes sv.length))
        (specCoreAverage (sv.map (fun x => x.2.2))
          ((sv.head?.map (fun x => x.2.2.length)).getD 0)
          (min numTimes sv.length - 1) (min numTimes sv.length))
        none
        ⟨toString now,
          specCpuAverage (sv.map (fun x => x.2.1)) (min numTimes sv.length - 1)
            (min numTimes sv.length),
          specCoreAverage (sv.map (fun x => x.2.2))
            ((sv.head?.map (fun x => x.2.2.length)).getD 0)
            (min numTimes sv.length - 1) (min numTimes sv.length)⟩ := by
  simp only [print_values, specCpuAverage, specCoreAverage]
  rw [if_neg (by omega)]
  simp only [if_true, true_and, List.length_map]
  rw [if_neg (show ¬(sv.length - (sv.length - numTimes) = 0) by omega)]
  have hat : sv.length - (sv.length - numTimes) = min numTimes sv.length := by omega
  have hdrop : sv.length - 1 - (min numTimes sv.length - 1) = sv.length - numTimes := by
    omega
  rw [hat, hdrop, cpuFold_eq, coreFold_eq]

/-- Witness for C1 amended on a 3-snapshot window with `--times 2`. -/
theorem C1_amended_average_witness :
    2 ≤ ([⟨0, List.replicate 10 2, []⟩, ⟨1, List.replicate 10 5, []⟩,
          ⟨2, List.replicate 10 9, []⟩] : List Snapshot).length ∧
    print_values
      [⟨0, List.replicate 10 2, []⟩, ⟨1, List.replicate 10 5, []⟩,
       ⟨2, List.replicate 10 9, []⟩] true 2 11 =
      .output
        (specCpuAverage [List.replicate 10 2, List.replicate 10 5, List.replicate 10 9]
          (min 2 3 - 1) (min 2 3))
        (specCoreAverage [[], [], []] 0 (min 2 3 - 1) (min 2 3))
        none
        ⟨toString 11,
          specCpuAverage [List.replicate 10 2, List.replicate 10 5, List.replicate 10 9]
            (min 2 3 - 1) (min 2 3),
          specCoreAverage [[], [], []] 0 (min 2 3 - 1) (min 2 3)⟩ :=
  ⟨by decide,
    C1_amended_average
      [⟨0, List.replicate 10 2, []⟩, ⟨1, List.replicate 10 5, []⟩,
       ⟨2, List.replicate 10 9, []⟩] 2 11 (by decide) (by decide)⟩

/-! ## C9: usage percentages -/

/-- C9. In instantaneous mode `print_values` renders, for the aggregate and
for every core, the percentage `usage_percent` of that entity's own delta
vector — i.e. `(1 − (delta[3] + delta[4]) / sum(all fields)) · 100`;
a delta vector with total 1000, idle 400 and iowait 0 gives exactly 60%
(displayed `60.00`), and the aggregate deltas `[10,0,10,50,0,0,0,0,0,0]`
give `200/7` %, displayed `28.57`. -/
theorem C9_usage_percentage (sv : List Snapshot) (numTimes now : Nat)
    (h2 : 2 ≤ sv.length) :
    (∃ c cs p, print_values sv false numTimes now =
      .output c cs (some (usage_percent c, cs.map usage_percent)) p) ∧
    (∀ avgs : List Int, avgs.foldl (· + ·) 0 = 1000 → avgs.getD 3 0 = 400 →
      avgs.getD 4 0 = 0 →
      usage_percent avgs = 60 ∧ displayCentis (usage_percent avgs) = 6000) ∧
    usage_percent [10, 0, 10, 50, 0, 0, 0, 0, 0, 0] = 200 / 7 ∧
    displayCentis ((200 : ℚ) / 7) = 2857 := by
  refine ⟨?_, ?_, ?_, ?_⟩
  · simp only [print_values]
    rw [if_neg (by omega)]
    simp only [Bool.false_eq_true, false_and, if_false, ite_false]
    exact ⟨_, _, _, rfl⟩
  · intro avgs h1 h3 h4
    have h60 : usage_percent avgs = 60 := by
      unfold usage_percent
      rw [h1, h3, h4]
      norm_num
    refine ⟨h60, ?_⟩
    rw [h60, displayCentis, round_eq, Int.floor_eq_iff]
    constructor <;> norm_num
  · simp only [usage_percent, List.foldl_cons, List.foldl_nil,
      List.getD_cons_succ, List.getD_cons_zero]
    norm_num
  · rw [displayCentis, round_eq, Int.floor_eq_iff]
    constructor <;> norm_num

/-- Witness for C9: a concrete two-snapshot window in instantaneous mode,
and the 1000/400/0 sample evaluated at `[600, 0, 0, 400, 0, 0, 0, 0, 0, 0]`. -/
theorem C9_usage_percentage_witness :
    2 ≤ ([⟨0, List.replicate 10 0, []⟩, ⟨1, List.replicate 10 4, []⟩] : List Snapshot).length ∧
    (∃ c cs p,
      print_values [⟨0, List.replicate 10 0, []⟩, ⟨1, List.replicate 10 4, []⟩] false 10 3 =
        .output c cs (some (usage_percent c, cs.map usage_percent)) p) ∧
    usage_percent [600, 0, 0, 400, 0, 0, 0, 0, 0, 0] = 60 :=
  ⟨by decide,
    (C9_usage_percentage [⟨0, List.replicate 10 0, []⟩, ⟨1, List.replicate 10 4, []⟩]
      10 3 (by decide)).1,
    ((C9_usage_percentage [⟨0, List.replicate 10 0, []⟩, ⟨1, List.replicate 10 4, []⟩]
      10 3 (by decide)).2.1 [600, 0, 0, 400, 0, 0, 0, 0, 0, 0]
      (by decide) (by decide) (by decide)).1⟩

/-! ## C7: the snapshot reader -/

/-- C7 counterexample. A first line with only 3 fields after its label is
accepted: `get_cpu_times ["cpu 1 2 3"]` succeeds with the 3-element
aggregate vector — no ParseError occurs for a line with fewer than 10
fields after the label. -/
theorem C7_counterexample :
    get_cpu_times ["cpu 1 2 3"] = .ok [1, 2, 3] [] ∧ (3 : Nat) < 10 := by
  exact ⟨by decide, by decide⟩

/-- C7 amended. The reader fails with a ParseError exactly when a consumed
numeric field is malformed; lines with fewer than 10 fields after the label
are accepted as-is (yielding shorter vectors). Otherwise it returns the
first line's fields (label skipped) as the aggregate and one vector per
subsequent line bearing the `"cpu"` prefix, stopping at the first
non-matching line. -/
theorem C7_amended_reader (first : String) (rest : List String) :
    get_cpu_times (first :: rest) =
      match parseFields ((splitWs first).drop 1),
            parseCoreLines (rest.takeWhile (fun l => startsWithCpu l)) with
      | some cpu, some cores => .ok cpu cores
      | _, _ => .panicParse := by
  have hcores : ∀ lines : List String,
      readCores lines = parseCoreLines (lines.takeWhile (fun l => startsWithCpu l)) := by
    intro lines
    induction lines with
    | nil => rfl
    | cons l t ih =>
      cases hl : startsWithCpu l <;>
        simp [readCores, List.takeWhile_cons, hl, parseCoreLines, ih]
  rw [get_cpu_times, hcores]
  cases parseFields ((splitWs first).drop 1) <;>
    cases parseCoreLines (rest.takeWhile (fun l => startsWithCpu l)) <;> rfl

/-! ## Parser lemmas and C3, C6 -/

/-- Whitespace skipping leaves a non-whitespace head alone. -/
theorem skipWs_cons (c : Char) (cs : List Char) (h : isWsChar c = false) :
    skipWs (c :: cs) = c :: cs := by
  simp [skipWs, h]

/-- All facts about decimal digit characters the parser proofs need. -/
theorem digitChar_facts (d : Nat) (hd : d < 10) :
    (digitChar d).isDigit = true ∧ isWsChar (digitChar d) = false ∧
    (digitChar d).toNat - 48 = d ∧
    digitChar d ≠ '[' ∧ digitChar d ≠ '{' ∧ digitChar d ≠ '"' ∧
    digitChar d ≠ '-' ∧ digitChar d ≠ ']' ∧ digitChar d ≠ '}' ∧
    digitChar d ≠ ',' ∧
    (digitChar d == '"' || digitChar d == '\\') = false ∧
    (digitChar d != '\n') = true := by
  interval_cases d <;> decide

theorem bigDigits_lt (n : Nat) : ∀ d ∈ bigDigits n, d < 10 := by
  intro d hd
  unfold bigDigits at hd
  split at hd
  · simp at hd
    omega
  · exact Nat.digits_lt_base (by norm_num) (List.mem_reverse.mp hd)

theorem bigDigits_ne_nil (n : Nat) : bigDigits n ≠ [] := by
  unfold bigDigits
  split
  · simp
  · intro hcon
    rw [List.reverse_eq_nil_iff] at hcon
    exact (Nat.digits_ne_nil_iff_ne_zero.mpr (by assumption)) hcon

theorem foldl_reverse_ofDigits (l : List Nat) (a : Nat) :
    l.reverse.foldl (fun acc d => acc * 10 + d) a =
      a * 10 ^ l.length + Nat.ofDigits 10 l := by
  induction l generalizing a with
  | nil => simp
  | cons d t ih =>
    rw [List.reverse_cons, List.foldl_append, ih]
    simp only [List.foldl_cons, List.foldl_nil, Nat.ofDigits_cons, List.length_cons]
    ring

theorem foldl_bigDigits (n : Nat) :
    (bigDigits n).foldl (fun acc d => acc * 10 + d) 0 = n := by
  unfold bigDigits
  split
  · simp [*]
  · rw [foldl_reverse_ofDigits]
    simp [Nat.ofDigits_digits]

theorem digitsToNat_append :
    ∀ (ds : List Nat) (rest : List Char) (acc : Nat),
      (∀ d ∈ ds, d < 10) → stopsNum rest →
      digitsToNat acc (ds.map digitChar ++ rest) =
        (ds.foldl (fun a d => a * 10 + d) acc, rest)
  | [], rest, acc, _, hrest => by
    cases rest with
    | nil => rfl
    | cons c cs =>
      have hc : c.isDigit = false := hrest
      simp [digitsToNat, hc]
  | d :: t, rest, acc, hds, hrest => by
    have hf := digitChar_facts d (hds d (List.mem_cons_self d t))
    simp only [List.map_cons, List.cons_append, digitsToNat, List.append_eq]
    rw [if_pos hf.1, hf.2.2.1,
      digitsToNat_append t rest _ (fun x hx => hds x (List.mem_cons_of_mem d hx)) hrest]
    rfl

theorem natChars_length_pos (n : Nat) : 1 ≤ (natChars n).length := by
  unfold natChars
  rcases List.exists_cons_of_ne_nil (bigDigits_ne_nil n) with ⟨d, ds, hds⟩
  simp [hds]

theorem intChars_length_pos (n : Int) : 1 ≤ (intChars n).length := by
  unfold intChars
  split
  · simp
  · exact natChars_length_pos _

/-- The head of a printed integer: non-whitespace and distinct from the
structural characters the parser dispatches on. -/
theorem intChars_head (n : Int) :
    ∃ c cs, intChars n = c :: cs ∧ isWsChar c = false ∧
      c ≠ '[' ∧ c ≠ '{' ∧ c ≠ '"' ∧ c ≠ ']' ∧ c ≠ '}' ∧ c ≠ ',' := by
  unfold intChars
  split
  · exact ⟨'-', _, rfl, by decide, by decide, by decide, by decide, by decide,
      by decide, by decide⟩
  · rcases List.exists_cons_of_ne_nil (bigDigits_ne_nil n.toNat) with ⟨d, ds, hds⟩
    have hd : d < 10 := bigDigits_lt _ d (by rw [hds]; exact List.mem_cons_self d ds)
    have hf := digitChar_facts d hd
    exact ⟨digitChar d, ds.map digitChar, by rw [natChars, hds, List.map_cons],
      hf.2.1, hf.2.2.2.1, hf.2.2.2.2.1, hf.2.2.2.2.2.1, hf.2.2.2.2.2.2.2.1,
      hf.2.2.2.2.2.2.2.2.1, hf.2.2.2.2.2.2.2.2.2.1⟩

/-- Parsing a printed integer consumes exactly it, when no digit follows. -/
theorem parseVal_intChars (fuel : Nat) (n : Int) (rest : List Char)
    (hfuel : 1 ≤ fuel) (hrest : stopsNum rest) :
    parseVal fuel (intChars n ++ rest) = some (.num n, rest) := by
  obtain ⟨fuel, rfl⟩ : ∃ f, fuel = f + 1 := ⟨fuel - 1, by omega⟩
  clear hfuel
  by_cases hneg : n < 0
  · rcases List.exists_cons_of_ne_nil (bigDigits_ne_nil n.natAbs) with ⟨d, ds, hds⟩
    have hmem : ∀ x ∈ d :: ds, x < 10 := by rw [← hds]; exact bigDigits_lt n.natAbs
    have hf := digitChar_facts d (hmem d (List.mem_cons_self d ds))
    have hstep :=
      digitsToNat_append ds rest d (fun x hx => hmem x (List.mem_cons_of_mem d hx)) hrest
    have hval : ds.foldl (fun a x => a * 10 + x) d = n.natAbs := by
      have h := foldl_bigDigits n.natAbs
      rw [hds, List.foldl_cons] at h
      simpa using h
    have hcast : -((n.natAbs : Nat) : Int) = n := by omega
    rw [intChars, if_pos hneg, natChars, hds]
    simp [List.map_cons, List.cons_append, List.append_eq, parseVal, skipWs,
      isWsChar, hf.1, hf.2.2.1, hstep, hval, hcast, abs_of_neg hneg]
  · rcases List.exists_cons_of_ne_nil (bigDigits_ne_nil n.toNat) with ⟨d, ds, hds⟩
    have hmem : ∀ x ∈ d :: ds, x < 10 := by rw [← hds]; exact bigDigits_lt n.toNat
    have hf := digitChar_facts d (hmem d (List.mem_cons_self d ds))
    have hstep :=
      digitsToNat_append ds rest d (fun x hx => hmem x (List.mem_cons_of_mem d hx)) hrest
    have hval : ds.foldl (fun a x => a * 10 + x) d = n.toNat := by
      have h := foldl_bigDigits n.toNat
      rw [hds, List.foldl_cons] at h
      simpa using h
    have hcast : ((n.toNat : Nat) : Int) = n := Int.toNat_of_nonneg (not_lt.mp hneg)
    rw [intChars, if_neg hneg, natChars, hds]
    simp [List.map_cons, List.cons_append, List.append_eq, parseVal,
      skipWs_cons _ _ hf.2.1, hf.1, hf.2.2.1, hf.2.2.2.1, hf.2.2.2.2.1,
      hf.2.2.2.2.2.1, hf.2.2.2.2.2.2.1, hstep, hval, hcast]

theorem intsTail_length_pos (xs : List Int) : 1 ≤ (intsTail xs).length := by
  cases xs <;> simp [intsTail]

theorem stopsNum_intsTail (xs : List Int) (rest : List Char) :
    stopsNum (intsTail xs ++ rest) := by
  cases xs <;> simp [intsTail, stopsNum]

theorem parseArrNext_intsTail :
    ∀ (xs : List Int) (fuel : Nat) (acc : List Json) (rest : List Char),
      (intsTail xs).length ≤ fuel →
      parseArrNext fuel acc (intsTail xs ++ rest) =
        some (.arr (acc ++ xs.map Json.num), rest)
  | xs, 0, _, _, hfuel => by
    have := intsTail_length_pos xs
    omega
  | [], fuel + 1, acc, rest, _ => by
    simp [intsTail, parseArrNext, skipWs, isWsChar]
  | x :: xs, fuel + 1, acc, rest, hfuel => by
    have h1 := intChars_length_pos x
    have h2 := intsTail_length_pos xs
    simp only [intsTail, List.length_cons, List.length_append] at hfuel
    have hparse := parseVal_intChars fuel x (intsTail xs ++ rest) (by omega)
      (stopsNum_intsTail xs rest)
    have hnext := parseArrNext_intsTail xs fuel (acc ++ [Json.num x]) rest (by omega)
    have hswc : isWsChar ',' = false := by decide
    simp only [intsTail, List.cons_append, List.append_assoc]
    simp [parseArrNext, skipWs, hswc, hparse, hnext]

theorem parseVal_listIntChars :
    ∀ (l : List Int) (fuel : Nat) (rest : List Char),
      (listIntChars l).length ≤ fuel →
      parseVal fuel (listIntChars l ++ rest) = some (.arr (l.map Json.num), rest)
  | l, 0, rest, hfuel => by
    have : 1 ≤ (listIntChars l).length := by simp [listIntChars]
    omega
  | [], fuel + 1, rest, _ => by
    simp [listIntChars, intsAfterHead, parseVal, skipWs, isWsChar]
  | x :: xs, fuel + 1, rest, hfuel => by
    have h1 := intChars_length_pos x
    have h2 := intsTail_length_pos xs
    simp only [listIntChars, intsAfterHead, List.length_cons, List.length_append] at hfuel
    obtain ⟨c0, cs0, hic, hws0, hlb0, hlc0, hq0, hrb0, hrc0, hcm0⟩ := intChars_head x
    have hparse := parseVal_intChars fuel x (intsTail xs ++ rest) (by omega)
      (stopsNum_intsTail xs rest)
    have hnext := parseArrNext_intsTail xs fuel [Json.num x] rest (by omega)
    rw [hic] at hparse
    simp only [List.cons_append] at hparse
    have hswA : isWsChar '[' = false := by decide
    have hsw0 : skipWs (c0 :: (cs0 ++ (intsTail xs ++ rest)))
        = c0 :: (cs0 ++ (intsTail xs ++ rest)) := skipWs_cons _ _ hws0
    simp only [listIntChars, intsAfterHead, List.cons_append, List.append_assoc, hic]
    simp [parseVal, skipWs, hswA, hsw0, hws0, hrb0, hparse, hnext]

theorem listsTail_length_pos (ls : List (List Int)) : 1 ≤ (listsTail ls).length := by
  cases ls <;> simp [listsTail]

theorem parseArrNext_listsTail :
    ∀ (ls : List (List Int)) (fuel : Nat) (acc : List Json) (rest : List Char),
      (listsTail ls).length ≤ fuel →
      parseArrNext fuel acc (listsTail ls ++ rest) =
        some (.arr (acc ++ ls.map (fun c => Json.arr (c.map Json.num))), rest)
  | ls, 0, _, _, hfuel => by
    have := listsTail_length_pos ls
    omega
  | [], fuel + 1, acc, rest, _ => by
    simp [listsTail, parseArrNext, skipWs, isWsChar]
  | x :: xs, fuel + 1, acc, rest, hfuel => by
    have h1 : 1 ≤ (listIntChars x).length := by simp [listIntChars]
    have h2 := listsTail_length_pos xs
    simp only [listsTail, List.length_cons, List.length_append] at hfuel
    have hparse := parseVal_listIntChars x fuel (listsTail xs ++ rest) (by omega)
    have hnext := parseArrNext_listsTail xs fuel
      (acc ++ [Json.arr (x.map Json.num)]) rest (by omega)
    have hswc : isWsChar ',' = false := by decide
    simp only [listsTail, List.cons_append, List.append_assoc]
    simp [parseArrNext, skipWs, hswc, hparse, hnext]

theorem parseVal_listListChars :
    ∀ (ls : List (List Int)) (fuel : Nat) (rest : List Char),
      (listListChars ls).length ≤ fuel →
      parseVal fuel (listListChars ls ++ rest) =
        some (.arr (ls.map (fun c => Json.arr (c.map Json.num))), rest)
  | ls, 0, rest, hfuel => by
    have : 1 ≤ (listListChars ls).length := by simp [listListChars]
    omega
  | [], fuel + 1, rest, _ => by
    simp [listListChars, listsAfterHead, parseVal, skipWs, isWsChar]
  | x :: xs, fuel + 1, rest, hfuel => by
    have h1 : 1 ≤ (listIntChars x).length := by simp [listIntChars]
    have h2 := listsTail_length_pos xs
    simp only [listListChars, listsAfterHead, List.length_cons,
      List.length_append] at hfuel
    have hparse := parseVal_listIntChars x fuel (listsTail xs ++ rest) (by omega)
    have hnext := parseArrNext_listsTail xs fuel [Json.arr (x.map Json.num)] rest (by omega)
    simp only [listIntChars, List.cons_append] at hparse
    have hswA : isWsChar '[' = false := by decide
    simp only [listListChars, listsAfterHead, listIntChars, List.cons_append,
      List.append_assoc]
    simp [parseVal, skipWs, hswA, hparse, hnext]

theorem takeWhile_clean :
    ∀ (s rest : List Char), (∀ c ∈ s, (c == '"' || c == '\\') = false) →
      (s ++ '"' :: rest).takeWhile (fun c => !(c == '"' || c == '\\')) = s
  | [], rest, _ => by
    simp [List.takeWhile_cons]
  | a :: t, rest, hs => by
    rw [List.cons_append, List.takeWhile_cons, hs a (List.mem_cons_self a t)]
    rw [takeWhile_clean t rest (fun c hc => hs c (List.mem_cons_of_mem a hc))]
    simp

theorem parseStrBody_append (s rest : List Char)
    (hs : ∀ c ∈ s, (c == '"' || c == '\\') = false) :
    parseStrBody (s ++ '"' :: rest) = some (String.mk s, rest) := by
  simp only [parseStrBody, takeWhile_clean s rest hs]
  rw [List.drop_left]
  rfl

theorem natChars_clean (n : Nat) :
    ∀ c ∈ natChars n, (c == '"' || c == '\\') = false := by
  intro c hc
  unfold natChars at hc
  obtain ⟨d, hd, rfl⟩ := List.mem_map.mp hc
  exact (digitChar_facts d (bigDigits_lt n d hd)).2.2.2.2.2.2.2.2.2.2.1

theorem parseVal_innerChars (cpu : List Int) (cores : List (List Int))
    (fuel : Nat) (rest : List Char)
    (hfuel : (innerChars cpu cores).length ≤ fuel) :
    parseVal fuel (innerChars cpu cores ++ rest) = some (innerJson cpu cores, rest) := by
  have h1 : 1 ≤ (listListChars cores).length := by simp [listListChars]
  have h2 : 1 ≤ (listIntChars cpu).length := by simp [listIntChars]
  have hc5 : ("cores".data : List Char).length = 5 := by decide
  have hc3 : ("cpu".data : List Char).length = 3 := by decide
  simp only [innerChars, List.length_cons, List.length_append, List.length_nil,
    hc5, hc3] at hfuel
  have hswlc : isWsChar '{' = false := by decide
  have hswq : isWsChar '"' = false := by decide
  have hswco : isWsChar ':' = false := by decide
  have hswcm : isWsChar ',' = false := by decide
  have hkeyCores : ∀ R : List Char,
      parseStrBody ('c' :: 'o' :: 'r' :: 'e' :: 's' :: '"' :: R) = some ("cores", R) :=
    fun R => by
      have h := parseStrBody_append "cores".data R (by decide)
      simpa using h
  have hkeyCpu : ∀ R : List Char,
      parseStrBody ('c' :: 'p' :: 'u' :: '"' :: R) = some ("cpu", R) :=
    fun R => by
      have h := parseStrBody_append "cpu".data R (by decide)
      simpa using h
  have hswrc : isWsChar '}' = false := by decide
  obtain ⟨f1, rfl⟩ : ∃ k, fuel = k + 1 := ⟨fuel - 1, by omega⟩
  simp only [innerChars, List.cons_append, List.append_assoc]
  simp [parseVal, skipWs, hswlc, hswq, hswco, hkeyCores]
  obtain ⟨f2, rfl⟩ : ∃ k, f1 = k + 1 := ⟨f1 - 1, by omega⟩
  obtain ⟨f3, rfl⟩ : ∃ k, f2 = k + 1 := ⟨f2 - 1, by omega⟩
  have hLL := parseVal_listListChars cores (f3 + 1 + 1)
    (',' :: '"' :: 'c' :: 'p' :: 'u' :: '"' :: ':' :: (listIntChars cpu ++ '}' :: rest))
    (by omega)
  have hLI := parseVal_listIntChars cpu (f3 + 1) ('}' :: rest) (by omega)
  simp [parseObjNext, skipWs, hswcm, hswq, hswco, hswrc, hkeyCpu, hLL, hLI, innerJson]

theorem parseVal_recordChars (key : Nat) (cpu : List Int) (cores : List (List Int))
    (fuel : Nat) (rest : List Char)
    (hfuel : (recordChars key cpu cores).length ≤ fuel) :
    parseVal fuel (recordChars key cpu cores ++ rest) =
      some (recordJson key cpu cores, rest) := by
  have h1 : 1 ≤ (innerChars cpu cores).length := by simp [innerChars]
  have h2 := natChars_length_pos key
  simp only [recordChars, List.length_cons, List.length_append, List.length_nil] at hfuel
  have hswlc : isWsChar '{' = false := by decide
  have hswq : isWsChar '"' = false := by decide
  have hswco : isWsChar ':' = false := by decide
  have hkeyNat : ∀ R : List Char,
      parseStrBody (natChars key ++ '"' :: R) = some (String.mk (natChars key), R) :=
    fun R => parseStrBody_append _ R (natChars_clean key)
  have hswrc : isWsChar '}' = false := by decide
  obtain ⟨f1, rfl⟩ : ∃ k, fuel = k + 1 := ⟨fuel - 1, by omega⟩
  simp only [recordChars, List.cons_append, List.append_assoc]
  simp [parseVal, skipWs, hswlc, hswq, hswco, hkeyNat]
  obtain ⟨f2, rfl⟩ : ∃ k, f1 = k + 1 := ⟨f1 - 1, by omega⟩
  have hInner := parseVal_innerChars cpu cores (f2 + 1) ('}' :: rest) (by omega)
  simp [parseObjNext, skipWs, hswrc, hInner, recordJson]

theorem natChars_no_nl (n : Nat) : ∀ c ∈ natChars n, (c != '\n') = true := by
  intro c hc
  obtain ⟨d, hd, rfl⟩ := List.mem_map.mp hc
  exact (digitChar_facts d (bigDigits_lt n d hd)).2.2.2.2.2.2.2.2.2.2.2

theorem intChars_no_nl (n : Int) : ∀ c ∈ intChars n, (c != '\n') = true := by
  intro c hc
  unfold intChars at hc
  split at hc
  · rcases List.mem_cons.mp hc with h | h
    · subst h; decide
    · exact natChars_no_nl _ c h
  · exact natChars_no_nl _ c hc

theorem intsTail_no_nl : ∀ (xs : List Int), ∀ c ∈ intsTail xs, (c != '\n') = true
  | [], c, hc => by
    simp only [intsTail, List.mem_singleton] at hc
    subst hc; decide
  | x :: xs, c, hc => by
    simp only [intsTail, List.mem_cons, List.mem_append] at hc
    rcases hc with h | h | h
    · subst h; decide
    · exact intChars_no_nl x c h
    · exact intsTail_no_nl xs c h

theorem listIntChars_no_nl (l : List Int) : ∀ c ∈ listIntChars l, (c != '\n') = true := by
  intro c hc
  simp only [listIntChars, List.mem_cons] at hc
  rcases hc with h | h
  · subst h; decide
  · cases l with
    | nil =>
      simp only [intsAfterHead, List.mem_singleton] at h
      subst h; decide
    | cons x xs =>
      simp only [intsAfterHead, List.mem_append] at h
      rcases h with h | h
      · exact intChars_no_nl x c h
      · exact intsTail_no_nl xs c h

theorem listsTail_no_nl : ∀ (ls : List (List Int)), ∀ c ∈ listsTail ls, (c != '\n') = true
  | [], c, hc => by
    simp only [listsTail, List.mem_singleton] at hc
    subst hc; decide
  | x :: xs, c, hc => by
    simp only [listsTail, List.mem_cons, List.mem_append] at hc
    rcases hc with h | h | h
    · subst h; decide
    · exact listIntChars_no_nl x c h
    · exact listsTail_no_nl xs c h

theorem listListChars_no_nl (ls : List (List Int)) :
    ∀ c ∈ listListChars ls, (c != '\n') = true := by
  intro c hc
  simp only [listListChars, List.mem_cons] at hc
  rcases hc with h | h
  · subst h; decide
  · cases ls with
    | nil =>
      simp only [listsAfterHead, List.mem_singleton] at h
      subst h; decide
    | cons x xs =>
      simp only [listsAfterHead, List.mem_append] at h
      rcases h with h | h
      · exact listIntChars_no_nl x c h
      · exact listsTail_no_nl xs c h

theorem strip_innerChars (cpu : List Int) (cores : List (List Int)) :
    (innerChars cpu cores).filter (fun c => c != '\n') = innerChars cpu cores := by
  have h1 : (listListChars cores).filter (fun c => c != '\n') = listListChars cores :=
    List.filter_eq_self.mpr (listListChars_no_nl cores)
  have h2 : (listIntChars cpu).filter (fun c => c != '\n') = listIntChars cpu :=
    List.filter_eq_self.mpr (listIntChars_no_nl cpu)
  simp [innerChars, List.filter_append, h1, h2]

theorem strip_recordChars (k : Nat) (cpu : List Int) (cores : List (List Int)) :
    (recordChars k cpu cores).filter (fun c => c != '\n') = recordChars k cpu cores := by
  have h1 : (natChars k).filter (fun c => c != '\n') = natChars k :=
    List.filter_eq_self.mpr (natChars_no_nl k)
  have h2 := strip_innerChars cpu cores
  simp [recordChars, List.filter_append, h1, h2]

theorem parseArrNext_close (fuel : Nat) (acc : List Json) (rest : List Char)
    (hfuel : 1 ≤ fuel) :
    parseArrNext fuel acc (']' :: rest) = some (.arr acc, rest) := by
  obtain ⟨f, rfl⟩ : ∃ k, fuel = k + 1 := ⟨fuel - 1, by omega⟩
  have hsw : isWsChar ']' = false := by decide
  simp [parseArrNext, skipWs, hsw]

theorem parseVal_singleRecordArray (k : Nat) (cpu : List Int) (cores : List (List Int))
    (fuel : Nat) (hfuel : (recordChars k cpu cores).length + 2 ≤ fuel) :
    parseVal fuel ('[' :: (recordChars k cpu cores ++ [']'])) =
      some (.arr [recordJson k cpu cores], []) := by
  obtain ⟨f1, rfl⟩ : ∃ f, fuel = f + 1 := ⟨fuel - 1, by omega⟩
  have hrec : recordChars k cpu cores
      = '{' :: ('"' :: (natChars k ++ '"' :: ':' :: (innerChars cpu cores ++ ['}']))) := rfl
  have hR := parseVal_recordChars k cpu cores f1 [']'] (by omega)
  rw [hrec] at hR
  simp only [List.cons_append, List.append_assoc, List.nil_append] at hR
  have hclose := parseArrNext_close f1 [recordJson k cpu cores] [] (by omega)
  have hswlb : isWsChar '[' = false := by decide
  have hswlc : isWsChar '{' = false := by decide
  simp only [hrec, List.cons_append, List.append_assoc]
  simp [parseVal, skipWs, hswlb, hswlc, hR, hclose]

theorem parseVal_twoRecordArray (k1 k2 : Nat) (c1 c2 : List Int)
    (cs1 cs2 : List (List Int)) (fuel : Nat)
    (hfuel : (recordChars k1 c1 cs1).length + (recordChars k2 c2 cs2).length + 3 ≤ fuel) :
    parseVal fuel
        ('[' :: (recordChars k1 c1 cs1 ++ ',' :: (recordChars k2 c2 cs2 ++ [']']))) =
      some (.arr [recordJson k1 c1 cs1, recordJson k2 c2 cs2], []) := by
  have hl1 : 1 ≤ (recordChars k1 c1 cs1).length := by simp [recordChars]
  have hl2 : 1 ≤ (recordChars k2 c2 cs2).length := by simp [recordChars]
  obtain ⟨f1, rfl⟩ : ∃ f, fuel = f + 1 := ⟨fuel - 1, by omega⟩
  have hrec1 : recordChars k1 c1 cs1
      = '{' :: ('"' :: (natChars k1 ++ '"' :: ':' :: (innerChars c1 cs1 ++ ['}']))) := rfl
  have hR1 := parseVal_recordChars k1 c1 cs1 f1
    (',' :: (recordChars k2 c2 cs2 ++ [']'])) (by omega)
  rw [hrec1] at hR1
  simp only [List.cons_append, List.append_assoc, List.nil_append] at hR1
  have hswlb : isWsChar '[' = false := by decide
  have hswlc : isWsChar '{' = false := by decide
  have hswcm : isWsChar ',' = false := by decide
  simp only [hrec1, List.cons_append, List.append_assoc]
  simp [parseVal, skipWs, hswlb, hswlc, hR1]
  obtain ⟨f2, rfl⟩ : ∃ f, f1 = f + 1 := ⟨f1 - 1, by omega⟩
  have hrec2 : recordChars k2 c2 cs2
      = '{' :: ('"' :: (natChars k2 ++ '"' :: ':' :: (innerChars c2 cs2 ++ ['}']))) := rfl
  have hR2 := parseVal_recordChars k2 c2 cs2 f2 [']'] (by omega)
  rw [hrec2] at hR2
  simp only [List.cons_append, List.append_assoc, List.nil_append] at hR2
  have hclose := parseArrNext_close f2
    [recordJson k1 c1 cs1, recordJson k2 c2 cs2] [] (by omega)
  simp only [hrec2, List.cons_append, List.append_assoc]
  simp [parseArrNext, skipWs, hswcm, hswlc, hR2, hclose]

/-- For arrays of the single-key object-valued records this program writes,
the source's `find` condition (`obj[ts].is_object()`) holds exactly when the
record's key equals `ts`. -/
theorem find_log_shape (ts : String) :
    ∀ (records : List Json),
      (∀ o ∈ records, ∃ k v, o = .obj [(k, .obj v)]) →
      records.find? (fun obj => (jsonIndex obj ts).isObj) = specFindByKey records ts
  | [], _ => rfl
  | o :: t, h => by
    obtain ⟨k, v, rfl⟩ := h _ (List.mem_cons_self o t)
    have ih := find_log_shape ts t (fun x hx => h x (List.mem_cons_of_mem _ hx))
    have hpred : (jsonIndex (Json.obj [(k, .obj v)]) ts).isObj = (k == ts) := by
      cases hk : k == ts <;> simp [jsonIndex, Json.isObj, List.find?, hk]
    cases hk : (k == ts) with
    | true => simp [specFindByKey, List.find?_cons, hpred, hk]
    | false => simp [specFindByKey, List.find?_cons, hpred, hk, ih]

/-- C6. For every persisted log — a JSON array of single-key records whose
values are objects, the only shape this program writes — and every requested
timestamp key, `read_json_file` returns the first record whose key matches
the requested key exactly by string equality (and prints only that record's
data); when no record's key matches, it prints
"No data found for timestamp <key>.". -/
theorem C6_read_exact_match (records : List Json) (ts : String)
    (h : ∀ o ∈ records, ∃ k v, o = .obj [(k, .obj v)]) :
    read_json_file records ts =
      match specFindByKey records ts with
      | some o => .record ts (jsonIndex o ts)
      | none => .notFound ("No data found for timestamp " ++ ts ++ ".") := by
  unfold read_json_file
  rw [find_log_shape ts records h]

/-- Witness for C6 on a one-record log keyed `"1700000000"`: the exact key
returns that record's data, a different key gives the not-found message. -/
theorem C6_read_exact_match_witness :
    read_json_file [.obj [("1700000000", .obj [("cpu", .num 1)])]] "1700000000" =
      .record "1700000000" (.obj [("cpu", .num 1)]) ∧
    read_json_file [.obj [("1700000000", .obj [("cpu", .num 1)])]] "1699999999" =
      .notFound "No data found for timestamp 1699999999." := by
  constructor
  · have h := C6_read_exact_match [.obj [("1700000000", .obj [("cpu", .num 1)])]]
      "1700000000"
      (by
        rintro o ho
        rw [List.mem_singleton] at ho
        subst ho
        exact ⟨_, _, rfl⟩)
    rw [h]
    rfl
  · have h := C6_read_exact_match [.obj [("1700000000", .obj [("cpu", .num 1)])]]
      "1699999999"
      (by
        rintro o ho
        rw [List.mem_singleton] at ho
        subst ho
        exact ⟨_, _, rfl⟩)
    rw [h]
    rfl

/-- C3. Persistence log round-trip, for arbitrary records of the shape the
program serializes (stringified numeric key, aggregate vector, per-core
vectors). Appending one record to an empty log yields a file whose full
contents — read back the way `read_json_file` reads them, newlines stripped
— parse as a JSON array of length 1 holding exactly that record; appending a
second yields a valid JSON array of length 2 with both records intact, in
append order; and replaying all records returns the same keys and field
arrays in append order. -/
theorem C3_log_roundtrip (k1 k2 : Nat) (c1 c2 : List Int)
    (cs1 cs2 : List (List Int)) :
    parseJson (stripNewlines (appendRecordToFile [] (recordChars k1 c1 cs1))) =
      some (.arr [recordJson k1 c1 cs1]) ∧
    parseJson (stripNewlines (appendRecordToFile
        (appendRecordToFile [] (recordChars k1 c1 cs1)) (recordChars k2 c2 cs2))) =
      some (.arr [recordJson k1 c1 cs1, recordJson k2 c2 cs2]) ∧
    readAllRecords [recordJson k1 c1 cs1, recordJson k2 c2 cs2] =
      [(String.mk (natChars k1), innerJson c1 cs1),
       (String.mk (natChars k2), innerJson c2 cs2)] := by
  have hfile1 : appendRecordToFile [] (recordChars k1 c1 cs1)
      = '[' :: (recordChars k1 c1 cs1 ++ ['\n', ']']) := rfl
  have hstrip1 : stripNewlines ('[' :: (recordChars k1 c1 cs1 ++ ['\n', ']']))
      = '[' :: (recordChars k1 c1 cs1 ++ [']']) := by
    have h := strip_recordChars k1 c1 cs1
    simp [stripNewlines, List.filter_append, h]
  refine ⟨?_, ?_, ?_⟩
  · rw [hfile1, hstrip1]
    have hlen : ('[' :: (recordChars k1 c1 cs1 ++ [']'])).length
        = (recordChars k1 c1 cs1).length + 2 := by simp
    have hp := parseVal_singleRecordArray k1 c1 cs1
      (('[' :: (recordChars k1 c1 cs1 ++ [']'])).length + 1) (by rw [hlen]; omega)
    simp at hp
    simp [parseJson, hp, skipWs]
  · have hfile2 : appendRecordToFile ('[' :: (recordChars k1 c1 cs1 ++ ['\n', ']']))
        (recordChars k2 c2 cs2)
        = '[' :: (recordChars k1 c1 cs1 ++
            '\n' :: ',' :: (recordChars k2 c2 cs2 ++ ['\n', ']'])) := by
      rw [appendRecordToFile, if_neg (by simp)]
      rw [show ('[' :: (recordChars k1 c1 cs1 ++ ['\n', ']']))
          = ('[' :: (recordChars k1 c1 cs1 ++ ['\n'])) ++ [']'] by simp]
      rw [List.dropLast_concat]
      simp
    have hstrip2 : stripNewlines ('[' :: (recordChars k1 c1 cs1 ++
          '\n' :: ',' :: (recordChars k2 c2 cs2 ++ ['\n', ']'])))
        = '[' :: (recordChars k1 c1 cs1 ++ ',' :: (recordChars k2 c2 cs2 ++ [']'])) := by
      have h1 := strip_recordChars k1 c1 cs1
      have h2 := strip_recordChars k2 c2 cs2
      simp [stripNewlines, List.filter_append, h1, h2]
    rw [hfile1, hfile2, hstrip2]
    have hlen : ('[' :: (recordChars k1 c1 cs1 ++
          ',' :: (recordChars k2 c2 cs2 ++ [']']))).length
        = (recordChars k1 c1 cs1).length + (recordChars k2 c2 cs2).length + 3 := by
      simp
      omega
    have hp := parseVal_twoRecordArray k1 k2 c1 c2 cs1 cs2
      (('[' :: (recordChars k1 c1 cs1 ++
          ',' :: (recordChars k2 c2 cs2 ++ [']']))).length + 1) (by rw [hlen]; omega)
    simp at hp
    simp [parseJson, hp, skipWs]
  · simp [readAllRecords, recordJson]

end ProcCpu
